import Mathlib

/-!
Verification of the ring-buffer repository (Rust sources under `src/`).

The repository implements a bounded circular buffer with batched writes and
reads, in three variants:

* `src/ringbuffer.rs` — generic inline-array variant (`T : Copy`), functions
  `n_write` / `n_read` (namespace `RB` below).  Its wrap-branch write uses
  `copy_from_slice`, which panics when the source and destination slice
  lengths differ; we model this panic by an `Option` result.
* `src/ringbuffer_ts.rs` — thread-safe variant over `AtomicUsize` slots,
  functions `n_write` / `n_read` (namespace `TS` below).  The per-slot loops
  copy element by element, so no panic is possible.  The source fixes the
  element type to `usize` (an `AtomicUsize` cell per slot); loads/stores of a
  slot simply move the value, so the model keeps the element type as a
  parameter `α` and concrete statements instantiate it at `Nat`.
* `src/ringbuffer_ts_g.rs` — thread-safe generic variant whose slots are
  `AtomicPtr` cells holding heap boxes (namespace `TSG` below).  Boxes are
  modelled by pairs `(id, value)` where `id` is a fresh allocation number
  drawn from a counter threaded through the state (the shallow embedding of
  `Box::into_raw` heap addresses); `Box::from_raw` followed by drop is
  modelled by recording the id in a `freed` list.
* `src/stack.rs` — a singly linked LIFO stack (namespace `StackM` below).

All machine integers involved (`usize` indices and counts) stay far below
`2^64` in every reachable state (they are bounded by `N` and the batch
length), and every subtraction in the source is performed only when the
subtrahend is known not to exceed the minuend, so `Nat` models them exactly.

Claims are settled at the end of the file; each claim's theorem carries a
doc comment naming it.
-/

set_option maxHeartbeats 1000000

/-- Buffer state shared by the inline variant (`src/ringbuffer.rs`) and the
atomic-scalar variant (`src/ringbuffer_ts.rs`): the slot array `buffer`
(length `N`), the read index `head`, the write index `tail`, and the
occupied-slot counter `used_count`.  Atomic cells are modelled by their
values: all loads/stores in the source are data moves whose orderings only
matter for cross-thread visibility, which a sequential model does not need. -/
structure RingBuf (α : Type) where
  buffer : List α
  head : Nat
  tail : Nat
  used_count : Nat
deriving Repr, DecidableEq

/-- Model of `new()` of both inline variants: all slots hold the default value and the
three counters are zero.  The default element is passed explicitly as `z`
(Rust obtains it from `T: Default`). -/
def RingBuf.new (N : Nat) (z : α) : RingBuf α :=
  { buffer := List.replicate N z, head := 0, tail := 0, used_count := 0 }

/-- Store the elements of `src` into `buf` at consecutive indices starting at
`start`: the shallow embedding of the per-slot store loops
(`for i in 0..len { buffer[start + i] = src[i] }`) and equally of
`buffer[start..start+len].copy_from_slice(src)` once the slice lengths are
known to agree.  `List.set` ignores out-of-range indices; all uses below are
in range. -/
def setSeg (buf : List α) (start : Nat) (src : List α) : List α :=
  match src with
  | [] => buf
  | x :: xs => setSeg (buf.set start x) (start + 1) xs

/-- A single batched call: either a write of an input batch or a read.
Single-producer/single-consumer executions are modelled sequentially, as an
arbitrary interleaving of completed calls. -/
inductive Op (α : Type) where
  | write (data : List α)
  | read
deriving Repr, DecidableEq

namespace TS

/-! `src/ringbuffer_ts.rs`, lines 33–61 (`n_write`) and 62–90 (`n_read`).
The element type is `usize` in the source (slots are `AtomicUsize`); the
model is parametric in the element type `α` since slot stores/loads just
move values.  `tail.wrapping_add(write_count)` cannot actually wrap: both
summands are at most `N`. -/

/-- Model of `n_write` of `src/ringbuffer_ts.rs`: reject a full buffer, clamp the
batch to the free space, copy (splitting at the wrap boundary) with per-slot
store loops, then publish the new `used_count` and `tail`. -/
def n_write (N : Nat) (rb : RingBuf α) (data : List α) : RingBuf α × Nat :=
  if N - rb.used_count = 0 then
    (rb, 0)
  else
    let write_count := min data.length (N - rb.used_count)
    let tail := rb.tail
    if write_count ≤ N - tail then
      ({ rb with buffer := setSeg rb.buffer tail (data.take write_count),
                 used_count := rb.used_count + write_count,
                 tail := tail + write_count }, write_count)
    else
      let new_tail := write_count - (N - tail)
      ({ rb with
           buffer := setSeg (setSeg rb.buffer tail (data.take (N - tail))) 0
             ((data.drop (N - tail)).take new_tail),
           used_count := rb.used_count + write_count,
           tail := new_tail }, write_count)

/-- Model of `n_read` of `src/ringbuffer_ts.rs`: clear the output vector (its previous
contents `out0` are discarded), return 0 on an empty buffer, otherwise copy
out the whole occupied region (splitting at the wrap boundary) and publish
the new `used_count` and `head`.  The push loops produce the slices
`buffer[head..head+read_count]`, resp. `buffer[head..N] ++ buffer[..new_head]`. -/
def n_read (N : Nat) (rb : RingBuf α) (out0 : List α) : RingBuf α × List α × Nat :=
  let _ := out0
  let read_count := rb.used_count
  if read_count = 0 then
    (rb, [], 0)
  else
    let hd := rb.head
    if read_count ≤ N - hd then
      ({ rb with used_count := rb.used_count - read_count,
                 head := hd + read_count },
        (rb.buffer.drop hd).take read_count, read_count)
    else
      let new_head := read_count - (N - hd)
      ({ rb with used_count := rb.used_count - read_count,
                 head := new_head },
        (rb.buffer.drop hd).take (N - hd) ++ rb.buffer.take new_head, read_count)

/-- One sequential call.  A write accepts `data.take write_count` (the prefix
the call reports as transferred); a read emits its output batch. -/
def step (N : Nat) (rb : RingBuf α) : Op α → RingBuf α × List α × List α
  | Op.write data =>
      let r := n_write N rb data
      (r.1, data.take r.2, [])
  | Op.read =>
      let r := n_read N rb []
      (r.1, [], r.2.1)

/-- Run a sequence of calls, accumulating the accepted elements of all
writes and the outputs of all reads, in call order. -/
def runOps (N : Nat) (rb : RingBuf α) : List (Op α) → RingBuf α × List α × List α
  | [] => (rb, [], [])
  | op :: ops =>
      let s := step N rb op
      let r := runOps N s.1 ops
      (r.1, s.2.1 ++ r.2.1, s.2.2 ++ r.2.2)

/-- The state invariant tying a buffer to its abstract FIFO contents: the
`i`-th pending element sits in slot `(head + i) % N`.  `head` and `tail` can
momentarily equal `N` (the no-wrap branch of either operation sets an index
to exactly `N` when the copied range ends at the array boundary), so the
indices live in `[0, N]` and `tail` agrees with `head + used_count` only
modulo `N`. -/
structure Inv (N : Nat) (rb : RingBuf α) (C : List α) : Prop where
  hlen : rb.buffer.length = N
  hused : rb.used_count = C.length
  hcap : rb.used_count ≤ N
  hhead : rb.head ≤ N
  htail : rb.tail ≤ N
  hsync : rb.tail % N = (rb.head + rb.used_count) % N
  hcontent : ∀ i, i < C.length → rb.buffer[(rb.head + i) % N]? = C[i]?

/-- States reachable from a fresh buffer by a sequence of completed calls. -/
def Reachable (N : Nat) (z : α) (rb : RingBuf α) : Prop :=
  ∃ ops : List (Op α), (runOps N (RingBuf.new N z) ops).1 = rb

end TS

namespace RB

/-! `src/ringbuffer.rs`, lines 29–51 (`n_write`) and 52–74 (`n_read`).
Same algorithm as the `TS` variant, but the copies use whole-slice
`copy_from_slice` / `extend_from_slice` calls instead of per-element loops.
`copy_from_slice` panics unless source and destination slices have the same
length; `none` models that panic (the call never returns; the partially
updated buffer is unobservable to the modelled sequential client).  The only
copy whose lengths can disagree — at a state with `buffer.length = N`,
`tail ≤ N`, `used_count ≤ N` — is the second wrap segment
`self.buffer[..new_tail].copy_from_slice(&data[(N - tail)..])`: its source
holds `data.len() - (N - tail)` elements but its destination holds
`new_tail = write_count - (N - tail)` slots. -/

/-- Model of `n_write` of `src/ringbuffer.rs`. -/
def n_write (N : Nat) (rb : RingBuf α) (data : List α) :
    Option (RingBuf α × Nat) :=
  if N - rb.used_count = 0 then
    some (rb, 0)
  else
    let write_count := min data.length (N - rb.used_count)
    let tail := rb.tail
    if write_count ≤ N - tail then
      some ({ rb with buffer := setSeg rb.buffer tail (data.take write_count),
                      used_count := rb.used_count + write_count,
                      tail := tail + write_count }, write_count)
    else
      let new_tail := write_count - (N - tail)
      if data.length - (N - tail) = new_tail then
        some ({ rb with
                  buffer := setSeg (setSeg rb.buffer tail (data.take (N - tail))) 0
                    (data.drop (N - tail)),
                  used_count := rb.used_count + write_count,
                  tail := new_tail }, write_count)
      else
        none

/-- Model of `n_read` of `src/ringbuffer.rs`: textually the same algorithm as
`TS.n_read` (`extend_from_slice` of the same slices the `TS` loops push). -/
def n_read (N : Nat) (rb : RingBuf α) (out0 : List α) :
    RingBuf α × List α × Nat :=
  let _ := out0
  let read_count := rb.used_count
  if read_count = 0 then
    (rb, [], 0)
  else
    let hd := rb.head
    if read_count ≤ N - hd then
      ({ rb with used_count := rb.used_count - read_count,
                 head := hd + read_count },
        (rb.buffer.drop hd).take read_count, read_count)
    else
      let new_head := read_count - (N - hd)
      ({ rb with used_count := rb.used_count - read_count,
                 head := new_head },
        (rb.buffer.drop hd).take (N - hd) ++ rb.buffer.take new_head, read_count)

/-- One sequential call of the inline variant; `none` when the call panics. -/
def step (N : Nat) (rb : RingBuf α) : Op α → Option (RingBuf α × List α × List α)
  | Op.write data =>
      (n_write N rb data).map fun r => (r.1, data.take r.2, [])
  | Op.read =>
      let r := n_read N rb []
      some (r.1, [], r.2.1)

/-- Run a sequence of calls on the inline variant; `none` as soon as one
call panics. -/
def runOps (N : Nat) (rb : RingBuf α) :
    List (Op α) → Option (RingBuf α × List α × List α)
  | [] => some (rb, [], [])
  | op :: ops => do
      let s ← step N rb op
      let r ← runOps N s.1 ops
      pure (r.1, s.2.1 ++ r.2.1, s.2.2 ++ r.2.2)

/-- States reachable from a fresh buffer through calls of the inline variant
none of which panics. -/
def Reachable (N : Nat) (z : α) (rb : RingBuf α) : Prop :=
  ∃ (ops : List (Op α)) (r : RingBuf α × List α × List α),
    runOps N (RingBuf.new N z) ops = some r ∧ r.1 = rb

end RB

namespace TSG

/-! `src/ringbuffer_ts_g.rs`, lines 36–68 (`n_write`) and 69–105 (`n_read`).
Slots are `AtomicPtr<T>` cells: `none` models a null pointer, `some (id, v)`
models a pointer to the heap box with allocation number `id` holding value
`v`.  Allocation numbers are drawn from the ghost counter `next_alloc`
(fresh ids stand for the distinct addresses `Box::into_raw` returns for
simultaneously live boxes).  A read that takes ownership of a box
(`Box::from_raw` + drop) reports the box's id in its `freed` result. -/

/-- State of the boxed-pointer variant. -/
structure RingBufG (α : Type) where
  buffer : List (Option (Nat × α))
  head : Nat
  tail : Nat
  used_count : Nat
  next_alloc : Nat
deriving Repr, DecidableEq

/-- Model of `new()` of `src/ringbuffer_ts_g.rs`: every slot holds a null pointer. -/
def RingBufG.new (N : Nat) : RingBufG α :=
  { buffer := List.replicate N none, head := 0, tail := 0, used_count := 0,
    next_alloc := 0 }

/-- The boxes a write loop allocates for the batch `l`, with consecutive
fresh allocation numbers starting at `base`
(`Box::new` / `Box::into_raw` per element). -/
def boxSeg (base : Nat) : List α → List (Option (Nat × α))
  | [] => []
  | x :: xs => some (base, x) :: boxSeg (base + 1) xs

/-- Model of `n_write` of `src/ringbuffer_ts_g.rs`: same index arithmetic as the
other variants; each stored element is boxed first, and the box pointer is
stored into the slot. -/
def n_write (N : Nat) (rb : RingBufG α) (data : List α) : RingBufG α × Nat :=
  if N - rb.used_count = 0 then
    (rb, 0)
  else
    let write_count := min data.length (N - rb.used_count)
    let tail := rb.tail
    if write_count ≤ N - tail then
      ({ rb with
           buffer := setSeg rb.buffer tail (boxSeg rb.next_alloc (data.take write_count)),
           used_count := rb.used_count + write_count,
           tail := tail + write_count,
           next_alloc := rb.next_alloc + write_count }, write_count)
    else
      let new_tail := write_count - (N - tail)
      ({ rb with
           buffer := setSeg
             (setSeg rb.buffer tail (boxSeg rb.next_alloc (data.take (N - tail)))) 0
             (boxSeg (rb.next_alloc + (N - tail)) ((data.drop (N - tail)).take new_tail)),
           used_count := rb.used_count + write_count,
           tail := new_tail,
           next_alloc := rb.next_alloc + (N - tail) + new_tail }, write_count)

/-- Collect the pointers of a run of slots; `none` as soon as one slot holds
a null pointer (dereferencing it is undefined behaviour). -/
def collectSome : List (Option β) → Option (List β)
  | [] => some []
  | none :: _ => none
  | some b :: rest => (collectSome rest).map (b :: ·)

/-- Model of `n_read` of `src/ringbuffer_ts_g.rs`.  In the no-wrap branch each slot's
pointer is turned back into a box (`Box::from_raw`), its value copied out
and the box deallocated — those ids are reported in the third component.  In
the wrap branch both loops only dereference the loaded pointer
(`data.push(*self.buffer[i].load(..))`): no `Box::from_raw`, so no box is
deallocated and the `freed` list is empty.  Slots are never nulled: the old
pointer stays behind in either branch. -/
def n_read (N : Nat) (rb : RingBufG α) (out0 : List α) :
    Option (RingBufG α × List α × List Nat × Nat) :=
  let _ := out0
  let read_count := rb.used_count
  if read_count = 0 then
    some (rb, [], [], 0)
  else
    let hd := rb.head
    if read_count ≤ N - hd then
      match collectSome ((rb.buffer.drop hd).take read_count) with
      | none => none
      | some boxes =>
          some ({ rb with used_count := rb.used_count - read_count,
                          head := hd + read_count },
            boxes.map Prod.snd, boxes.map Prod.fst, read_count)
    else
      let new_head := read_count - (N - hd)
      match collectSome ((rb.buffer.drop hd).take (N - hd) ++
          rb.buffer.take new_head) with
      | none => none
      | some boxes =>
          some ({ rb with used_count := rb.used_count - read_count,
                          head := new_head },
            boxes.map Prod.snd, [], read_count)

end TSG

namespace StackM

/-! `src/stack.rs`: `Stack { head: Node<T> }` with
`Node<T> = Option<Box<Content<T>>>` and `Content { elem, next }`.  The chain
of exclusively owned nodes hanging off `head` is exactly a list of elements,
which is how we model it. -/

/-- The stack: its head link's chain of nodes, head element first. -/
structure Stack (α : Type) where
  head : List α
deriving Repr, DecidableEq

/-- Model of `Stack::new()`: `head` is `None`. -/
def Stack.new : Stack α := ⟨[]⟩

/-- Model of `push`: a fresh node holding `elem` takes ownership of the previous
head chain and becomes the new head. -/
def push (s : Stack α) (elem : α) : Stack α :=
  ⟨elem :: s.head⟩

/-- Model of `pop`: `head.take().map(..)` — on an empty stack, `None` and the stack
stays empty; otherwise the head node's element is returned and the head's
successor chain becomes the new head. -/
def pop (s : Stack α) : Stack α × Option α :=
  match s.head with
  | [] => (⟨[]⟩, none)
  | e :: rest => (⟨rest⟩, some e)

end StackM

theorem setSeg_length (src : List α) (buf : List α) (start : Nat) :
    (setSeg buf start src).length = buf.length := by
  induction src generalizing buf start with
  | nil => rfl
  | cons x xs ih => simp [setSeg, ih]

theorem setSeg_getElem?_lt (src : List α) (buf : List α) (start i : Nat)
    (h : i < start) : (setSeg buf start src)[i]? = buf[i]? := by
  induction src generalizing buf start with
  | nil => rfl
  | cons x xs ih =>
      show (setSeg (buf.set start x) (start + 1) xs)[i]? = buf[i]?
      rw [ih _ _ (Nat.lt_succ_of_lt h), List.getElem?_set_ne (by omega)]

theorem setSeg_getElem?_ge (src : List α) (buf : List α) (start i : Nat)
    (h : start + src.length ≤ i) :
    (setSeg buf start src)[i]? = buf[i]? := by
  induction src generalizing buf start with
  | nil => rfl
  | cons x xs ih =>
      show (setSeg (buf.set start x) (start + 1) xs)[i]? = buf[i]?
      rw [ih _ _ (by simp at h ⊢; omega),
        List.getElem?_set_ne (by simp at h; omega)]

theorem setSeg_getElem?_mid (src : List α) (buf : List α) (start i : Nat)
    (h1 : start ≤ i) (h2 : i < start + src.length) (h3 : i < buf.length) :
    (setSeg buf start src)[i]? = src[i - start]? := by
  induction src generalizing buf start with
  | nil => simp at h2; omega
  | cons x xs ih =>
      show (setSeg (buf.set start x) (start + 1) xs)[i]? = (x :: xs)[i - start]?
      rcases Nat.eq_or_lt_of_le h1 with heq | hlt
      · subst heq
        rw [setSeg_getElem?_lt xs _ _ _ (Nat.lt_succ_self _),
          List.getElem?_set_self (by simpa using h3)]
        simp
      · rw [ih _ _ hlt (by simp at h2; omega) (by simpa using h3)]
        have heq2 : i - start = (i - (start + 1)) + 1 := by omega
        simp [heq2]

-- buffer: counts 8, 8, 8, 2 and a final read of the last 10 values in order.
theorem ts_wrap_vector :
    TS.runOps 10 (RingBuf.new 10 0)
      [Op.write [1,2,3,4,5,6,7,8], Op.read,
       Op.write [11,12,13,14,15,16,17,18], Op.write [21,22],
       Op.read] =
    ((⟨[13,14,15,16,17,18,21,22,11,12], 8, 8, 0⟩ : RingBuf Nat),
      [1,2,3,4,5,6,7,8,11,12,13,14,15,16,17,18,21,22],
      [1,2,3,4,5,6,7,8,11,12,13,14,15,16,17,18,21,22]) := by decide

/-- Subtracting one modulus keeps the residue. -/
theorem mod_sub_cancel (a N : Nat) (h : N ≤ a) : (a - N) % N = a % N := by
  conv_rhs => rw [← Nat.sub_add_cancel h]
  rw [Nat.add_mod_right]

/-- Adding `h` before reducing mod `N` is injective below `N`. -/
theorem mod_shift_inj (N h a b : Nat) (ha : a < N) (hb : b < N)
    (heq : (h + a) % N = (h + b) % N) : a = b := by
  have h2 : a % N = b % N := Nat.ModEq.add_left_cancel' h heq
  rwa [Nat.mod_eq_of_lt ha, Nat.mod_eq_of_lt hb] at h2

/-- Shifting a residue equality by `j`. -/
theorem mod_shift_add (t h u N j : Nat) (hs : t % N = (h + u) % N) :
    (t + j) % N = (h + (u + j)) % N := by
  have h2 : t + j ≡ h + u + j [MOD N] := Nat.ModEq.add_right j hs
  simpa [Nat.add_assoc] using h2

namespace TS

theorem inv_new (N : Nat) (z : α) : Inv N (RingBuf.new N z) [] := by
  constructor <;> simp [RingBuf.new]

theorem n_write_full (N : Nat) (rb : RingBuf α) (data : List α)
    (h : N - rb.used_count = 0) : n_write N rb data = (rb, 0) := by
  simp [n_write, h]

theorem n_write_nowrap (N : Nat) (rb : RingBuf α) (data : List α)
    (hfull : N - rb.used_count ≠ 0)
    (hno : min data.length (N - rb.used_count) ≤ N - rb.tail) :
    n_write N rb data =
      ({ rb with
           buffer := setSeg rb.buffer rb.tail
             (data.take (min data.length (N - rb.used_count))),
           used_count := rb.used_count + min data.length (N - rb.used_count),
           tail := rb.tail + min data.length (N - rb.used_count) },
        min data.length (N - rb.used_count)) := by
  rw [n_write, if_neg hfull]
  simp only [if_pos hno]

theorem n_write_wrap (N : Nat) (rb : RingBuf α) (data : List α)
    (hfull : N - rb.used_count ≠ 0)
    (hno : ¬ min data.length (N - rb.used_count) ≤ N - rb.tail) :
    n_write N rb data =
      ({ rb with
           buffer := setSeg (setSeg rb.buffer rb.tail (data.take (N - rb.tail))) 0
             ((data.drop (N - rb.tail)).take
               (min data.length (N - rb.used_count) - (N - rb.tail))),
           used_count := rb.used_count + min data.length (N - rb.used_count),
           tail := min data.length (N - rb.used_count) - (N - rb.tail) },
        min data.length (N - rb.used_count)) := by
  rw [n_write, if_neg hfull]
  simp only [if_neg hno]

/-- Write preservation: `n_write` returns `min (batch length) (free space)` and appends exactly
the accepted prefix of the batch to the abstract FIFO contents. -/
theorem n_write_inv (N : Nat) (rb : RingBuf α) (C data : List α)
    (hinv : Inv N rb C) :
    (n_write N rb data).2 = min data.length (N - rb.used_count) ∧
      Inv N (n_write N rb data).1 (C ++ data.take (n_write N rb data).2) := by
  obtain ⟨hlen, hused, hcap, hhead, htail, hsync, hcontent⟩ := hinv
  by_cases hfull : N - rb.used_count = 0
  · rw [n_write_full N rb data hfull]
    exact ⟨by omega, by exact ⟨hlen, by simpa using hused, hcap, hhead, htail,
      hsync, by simpa using hcontent⟩⟩
  · have hN : 0 < N := by omega
    set u := rb.used_count with hu
    set t := rb.tail with ht
    set h := rb.head with hh
    set wc := min data.length (N - u) with hwc
    have hwcu : u + wc ≤ N := by omega
    have hwcd : wc ≤ data.length := by omega
    have htakelen : (data.take wc).length = wc := by simp; omega
    have hClen : C.length = u := hused.symm
    by_cases hnowrap : wc ≤ N - t
    · -- no wrap: a single segment [t, t + wc) is overwritten
      rw [n_write_nowrap N rb data hfull hnowrap]
      refine ⟨rfl, ⟨?_, ?_, ?_, ?_, ?_, ?_, ?_⟩⟩
      · simpa [setSeg_length] using hlen
      · simp [← hu, ← hwc, hClen]; omega
      · simp [← hu, ← hwc]; omega
      · exact hhead
      · simp [← hu, ← ht, ← hwc]; omega
      · simpa [← hu, ← ht, ← hh, ← hwc] using mod_shift_add t h u N wc hsync
      · simp only [← hu, ← ht, ← hh, ← hwc]
        intro i hi
        rw [List.length_append, hClen, htakelen] at hi
        rcases Nat.lt_or_ge i u with hiu | hiu
        · -- old elements are outside the written range
          have hp : (h + i) % N < N := Nat.mod_lt _ hN
          have hdisj : (h + i) % N < t ∨ t + wc ≤ (h + i) % N := by
            by_contra hcon
            push_neg at hcon
            set j := (h + i) % N - t with hj
            have hjwc : j < wc := by omega
            have htj : t + j = (h + i) % N := by omega
            have hje : (h + (u + j)) % N = (h + i) % N := by
              rw [← mod_shift_add t h u N j hsync, htj, Nat.mod_eq_of_lt hp]
            have := mod_shift_inj N h (u + j) i (by omega) (by omega) hje
            omega
          have hunch : (setSeg rb.buffer t (data.take wc))[(h + i) % N]? =
              rb.buffer[(h + i) % N]? := by
            rcases hdisj with hlt | hge
            · exact setSeg_getElem?_lt _ _ _ _ hlt
            · exact setSeg_getElem?_ge _ _ _ _ (by rw [htakelen]; omega)
          rw [hunch, hcontent i (by omega), List.getElem?_append]
          rw [if_pos (by omega)]
        · -- fresh elements land at offset i - u inside the written range
          set j := i - u with hj
          have hjwc : j < wc := by omega
          have hpos : (h + i) % N = t + j := by
            have : (t + j) % N = (h + i) % N := by
              rw [mod_shift_add t h u N j hsync]
              congr 1
              omega
            rw [← this, Nat.mod_eq_of_lt (by omega)]
          rw [hpos, setSeg_getElem?_mid _ _ _ _ (by omega)
            (by rw [htakelen]; omega) (by rw [hlen]; omega)]
          rw [List.getElem?_append_right (by omega)]
          congr 1
          omega
    · -- wrap: segments [t, N) and [0, new_tail)
      rw [n_write_wrap N rb data hfull hnowrap]
      set nt := wc - (N - t) with hnt
      have hntt : nt ≤ t := by omega
      have hseg1 : (data.take (N - t)).length = N - t := by simp; omega
      have hseg2 : ((data.drop (N - t)).take nt).length = nt := by simp; omega
      have hinnerlen : (setSeg rb.buffer t (data.take (N - t))).length = N := by
        simpa [setSeg_length] using hlen
      -- pointwise description of the new buffer
      have hbufA : ∀ p, nt ≤ p → p < t →
          (setSeg (setSeg rb.buffer t (data.take (N - t))) 0
            ((data.drop (N - t)).take nt))[p]? = rb.buffer[p]? := by
        intro p hp1 hp2
        rw [setSeg_getElem?_ge _ _ _ _ (by rw [hseg2]; omega),
          setSeg_getElem?_lt _ _ _ _ hp2]
      have hbufB : ∀ j, j < N - t →
          (setSeg (setSeg rb.buffer t (data.take (N - t))) 0
            ((data.drop (N - t)).take nt))[t + j]? = data[j]? := by
        intro j hjr
        rw [setSeg_getElem?_ge _ _ _ _ (by rw [hseg2]; omega),
          setSeg_getElem?_mid _ _ _ _ (by omega) (by rw [hseg1]; omega)
            (by rw [hlen]; omega)]
        rw [List.getElem?_take, if_pos (by omega)]
        congr 1
        omega
      have hbufC : ∀ j, j < nt →
          (setSeg (setSeg rb.buffer t (data.take (N - t))) 0
            ((data.drop (N - t)).take nt))[j]? = data[(N - t) + j]? := by
        intro j hjr
        rw [setSeg_getElem?_mid _ _ _ _ (by omega) (by rw [hseg2]; omega)
          (by rw [hinnerlen]; omega)]
        rw [List.getElem?_take, if_pos (by omega), List.getElem?_drop]
        simp
      refine ⟨rfl, ⟨?_, ?_, ?_, ?_, ?_, ?_, ?_⟩⟩
      · simpa [setSeg_length] using hlen
      · simp [← hu, ← hwc, hClen]; omega
      · simp [← hu, ← hwc]; omega
      · exact hhead
      · simp [← hu, ← ht, ← hwc]; omega
      · simp only [← hu, ← ht, ← hh, ← hwc, ← hnt]
        have : (t + wc - N) % N = (t + wc) % N :=
          mod_sub_cancel (t + wc) N (by omega)
        have h2 : nt = t + wc - N := by omega
        rw [h2, this, mod_shift_add t h u N wc hsync]
      · simp only [← hu, ← ht, ← hh, ← hwc, ← hnt]
        intro i hi
        rw [List.length_append, hClen, htakelen] at hi
        rcases Nat.lt_or_ge i u with hiu | hiu
        · -- old elements live in [nt, t)
          have hp : (h + i) % N < N := Nat.mod_lt _ hN
          have hdisj : nt ≤ (h + i) % N ∧ (h + i) % N < t := by
            by_contra hcon
            rcases Nat.lt_or_ge ((h + i) % N) nt with hsmall | hbig
            · -- slot in the second segment would collide with a fresh element
              set j := (N - t) + (h + i) % N with hj
              have hjwc : j < wc := by omega
              have hje : (h + (u + j)) % N = (h + i) % N := by
                rw [← mod_shift_add t h u N j hsync]
                have h3 : t + j = N + (h + i) % N := by omega
                rw [h3, Nat.add_mod_left, Nat.mod_eq_of_lt hp]
              have := mod_shift_inj N h (u + j) i (by omega) (by omega) hje
              omega
            · -- slot in the first segment would collide with a fresh element
              have hge : t ≤ (h + i) % N := by omega
              set j := (h + i) % N - t with hj
              have hjwc : j < wc := by omega
              have hje : (h + (u + j)) % N = (h + i) % N := by
                rw [← mod_shift_add t h u N j hsync]
                have h3 : t + j = (h + i) % N := by omega
                rw [h3, Nat.mod_eq_of_lt hp]
              have := mod_shift_inj N h (u + j) i (by omega) (by omega) hje
              omega
          rw [hbufA _ hdisj.1 hdisj.2, hcontent i (by omega),
            List.getElem?_append, if_pos (by omega)]
        · -- fresh element at offset j := i - u
          set j := i - u with hj
          have hjwc : j < wc := by omega
          have hrhs : (C ++ data.take wc)[i]? = data[j]? := by
            rw [List.getElem?_append_right (by omega), List.getElem?_take,
              if_pos (by omega)]
            congr 1
            omega
          rcases Nat.lt_or_ge j (N - t) with hjlt | hjge
          · -- first segment
            have hpos : (h + i) % N = t + j := by
              have h4 : (t + j) % N = (h + i) % N := by
                rw [mod_shift_add t h u N j hsync]
                congr 1
                omega
              rw [← h4, Nat.mod_eq_of_lt (by omega)]
            rw [hpos, hbufB j hjlt, hrhs]
          · -- second segment, past the wrap boundary
            have hpos : (h + i) % N = j - (N - t) := by
              have h4 : (t + j) % N = (h + i) % N := by
                rw [mod_shift_add t h u N j hsync]
                congr 1
                omega
              have h5 : t + j = N + (j - (N - t)) := by omega
              rw [← h4, h5, Nat.add_mod_left, Nat.mod_eq_of_lt (by omega)]
            rw [hpos, hbufC (j - (N - t)) (by omega)]
            rw [hrhs]
            congr 1
            omega

theorem n_read_empty (N : Nat) (rb : RingBuf α) (out0 : List α)
    (h : rb.used_count = 0) : n_read N rb out0 = (rb, [], 0) := by
  simp [n_read, h]

theorem n_read_nowrap (N : Nat) (rb : RingBuf α) (out0 : List α)
    (h0 : rb.used_count ≠ 0) (hno : rb.used_count ≤ N - rb.head) :
    n_read N rb out0 =
      ({ rb with used_count := rb.used_count - rb.used_count,
                 head := rb.head + rb.used_count },
        (rb.buffer.drop rb.head).take rb.used_count, rb.used_count) := by
  rw [n_read]
  simp only [if_neg h0, if_pos hno]

theorem n_read_wrap (N : Nat) (rb : RingBuf α) (out0 : List α)
    (h0 : rb.used_count ≠ 0) (hno : ¬ rb.used_count ≤ N - rb.head) :
    n_read N rb out0 =
      ({ rb with used_count := rb.used_count - rb.used_count,
                 head := rb.used_count - (N - rb.head) },
        (rb.buffer.drop rb.head).take (N - rb.head) ++
          rb.buffer.take (rb.used_count - (N - rb.head)), rb.used_count) := by
  rw [n_read]
  simp only [if_neg h0, if_neg hno]

/-- Read preservation: `n_read` drains the buffer: it returns the whole abstract contents
(independently of the output vector's previous contents) and the resulting
state holds no elements. -/
theorem n_read_inv (N : Nat) (rb : RingBuf α) (C out0 : List α)
    (hinv : Inv N rb C) :
    (n_read N rb out0).2.2 = C.length ∧ (n_read N rb out0).2.1 = C ∧
      Inv N (n_read N rb out0).1 [] := by
  obtain ⟨hlen, hused, hcap, hhead, htail, hsync, hcontent⟩ := hinv
  by_cases h0 : rb.used_count = 0
  · rw [n_read_empty N rb out0 h0]
    have hC : C = [] := List.eq_nil_of_length_eq_zero (by omega)
    subst hC
    exact ⟨by simp [hused.symm, h0], rfl, ⟨hlen, hused, hcap, hhead, htail,
      hsync, by simp⟩⟩
  · have hN : 0 < N := by omega
    have hClen : C.length = rb.used_count := hused.symm
    by_cases hnowrap : rb.used_count ≤ N - rb.head
    · rw [n_read_nowrap N rb out0 h0 hnowrap]
      simp only
      refine ⟨hClen.symm, ?_, ?_⟩
      · -- output equals the contents
        apply List.ext_getElem?
        intro i
        rcases Nat.lt_or_ge i rb.used_count with hi | hi
        · rw [List.getElem?_take, if_pos hi, List.getElem?_drop,
            ← Nat.mod_eq_of_lt (show rb.head + i < N by omega)]
          exact hcontent i (by omega)
        · rw [List.getElem?_eq_none, List.getElem?_eq_none (by omega)]
          simp [hlen]
          omega
      · refine ⟨hlen, by simp, by simp, by simp only; omega, htail, ?_, by simp⟩
        simp only [Nat.sub_self, Nat.add_zero]
        exact hsync
    · rw [n_read_wrap N rb out0 h0 hnowrap]
      simp only
      refine ⟨hClen.symm, ?_, ?_⟩
      · apply List.ext_getElem?
        intro i
        rcases Nat.lt_or_ge i (N - rb.head) with hi | hi
        · rw [List.getElem?_append, if_pos (by simp [hlen]; omega)]
          rw [List.getElem?_take, if_pos hi, List.getElem?_drop,
            ← Nat.mod_eq_of_lt (show rb.head + i < N by omega)]
          exact hcontent i (by omega)
        · rcases Nat.lt_or_ge i rb.used_count with hiu | hiu
          · rw [List.getElem?_append_right (by simp [hlen]; omega)]
            rw [List.getElem?_take, if_pos (by simp [hlen]; omega)]
            rw [← hcontent i (by omega)]
            have hlt : (rb.head + i) % N = i - (N - rb.head) := by
              have h5 : rb.head + i = N + (i - (N - rb.head)) := by omega
              rw [h5, Nat.add_mod_left, Nat.mod_eq_of_lt (by omega)]
            rw [hlt]
            congr 1
            simp [hlen]
          · rw [List.getElem?_eq_none (by simp [hlen]; omega),
              List.getElem?_eq_none (by omega)]
      · refine ⟨hlen, by simp, by simp, by simp only; omega, htail, ?_, by simp⟩
        simp only [Nat.sub_self, Nat.add_zero]
        have h6 : rb.used_count - (N - rb.head) = rb.head + rb.used_count - N := by
          omega
        rw [h6, mod_sub_cancel (rb.head + rb.used_count) N (by omega)]
        exact hsync

theorem runOps_cons (N : Nat) (rb : RingBuf α) (op : Op α) (ops : List (Op α)) :
    runOps N rb (op :: ops) =
      ((runOps N (step N rb op).1 ops).1,
        (step N rb op).2.1 ++ (runOps N (step N rb op).1 ops).2.1,
        (step N rb op).2.2 ++ (runOps N (step N rb op).1 ops).2.2) := rfl

theorem step_write (N : Nat) (rb : RingBuf α) (data : List α) :
    step N rb (Op.write data) =
      ((n_write N rb data).1, data.take (n_write N rb data).2, []) := rfl

theorem step_read (N : Nat) (rb : RingBuf α) :
    step N rb (Op.read) =
      ((n_read N rb []).1, [], (n_read N rb []).2.1) := rfl

/-- Running a batch of calls: the prior contents plus everything accepted by
the writes equals everything emitted by the reads plus the final contents. -/
theorem runOps_inv (N : Nat) (ops : List (Op α)) (rb : RingBuf α) (C : List α)
    (hinv : Inv N rb C) :
    ∃ C', Inv N (runOps N rb ops).1 C' ∧
      C ++ (runOps N rb ops).2.1 = (runOps N rb ops).2.2 ++ C' := by
  induction ops generalizing rb C with
  | nil => exact ⟨C, hinv, by simp [runOps]⟩
  | cons op ops ih =>
      cases op with
      | write data =>
          obtain ⟨hcnt, hinv'⟩ := n_write_inv N rb C data hinv
          obtain ⟨C', hC', heq⟩ := ih _ _ hinv'
          refine ⟨C', ?_, ?_⟩
          · rw [runOps_cons, step_write]
            exact hC'
          · rw [runOps_cons, step_write]
            simp only [List.nil_append, ← List.append_assoc]
            exact heq
      | read =>
          obtain ⟨hcnt, hout, hinv'⟩ := n_read_inv N rb C [] hinv
          obtain ⟨C', hC', heq⟩ := ih _ _ hinv'
          rw [List.nil_append] at heq
          refine ⟨C', ?_, ?_⟩
          · rw [runOps_cons, step_read]
            exact hC'
          · rw [runOps_cons, step_read, hout]
            simp only [List.nil_append, List.append_assoc]
            exact congrArg (C ++ ·) heq

theorem n_read_used (N : Nat) (rb : RingBuf α) (out0 : List α) :
    (n_read N rb out0).1.used_count = 0 := by
  by_cases h0 : rb.used_count = 0
  · rw [n_read_empty N rb out0 h0]; exact h0
  · by_cases hnowrap : rb.used_count ≤ N - rb.head
    · rw [n_read_nowrap N rb out0 h0 hnowrap]; exact Nat.sub_self _
    · rw [n_read_wrap N rb out0 h0 hnowrap]; exact Nat.sub_self _

theorem runOps_append (N : Nat) (xs ys : List (Op α)) (rb : RingBuf α) :
    runOps N rb (xs ++ ys) =
      ((runOps N (runOps N rb xs).1 ys).1,
        (runOps N rb xs).2.1 ++ (runOps N (runOps N rb xs).1 ys).2.1,
        (runOps N rb xs).2.2 ++ (runOps N (runOps N rb xs).1 ys).2.2) := by
  induction xs generalizing rb with
  | nil => simp [runOps]
  | cons op xs ih =>
      rw [List.cons_append, runOps_cons, runOps_cons, ih]
      simp [List.append_assoc]

theorem reachable_inv (N : Nat) (z : α) (rb : RingBuf α)
    (h : Reachable N z rb) : ∃ C, Inv N rb C := by
  obtain ⟨ops, hops⟩ := h
  obtain ⟨C, hC, _⟩ := runOps_inv N ops (RingBuf.new N z) [] (inv_new N z)
  exact ⟨C, hops ▸ hC⟩

theorem n_read_count (N : Nat) (rb : RingBuf α) (out0 : List α) :
    (n_read N rb out0).2.2 = rb.used_count := by
  by_cases h0 : rb.used_count = 0
  · rw [n_read_empty N rb out0 h0, h0]
  · by_cases hnowrap : rb.used_count ≤ N - rb.head
    · rw [n_read_nowrap N rb out0 h0 hnowrap]
    · rw [n_read_wrap N rb out0 h0 hnowrap]

theorem n_read_len (N : Nat) (rb : RingBuf α) (out0 : List α)
    (hlen : rb.buffer.length = N) (hcap : rb.used_count ≤ N) :
    (n_read N rb out0).2.1.length = rb.used_count := by
  by_cases h0 : rb.used_count = 0
  · rw [n_read_empty N rb out0 h0, h0]; rfl
  · by_cases hnowrap : rb.used_count ≤ N - rb.head
    · rw [n_read_nowrap N rb out0 h0 hnowrap]
      simp [hlen]
      omega
    · rw [n_read_wrap N rb out0 h0 hnowrap]
      simp [hlen]
      omega

end TS

namespace RB

theorem n_read_eq_ts (N : Nat) (rb : RingBuf α) (out0 : List α) :
    n_read N rb out0 = TS.n_read N rb out0 := rfl

/-- Whenever the inline variant's write completes (does not panic), it
computes exactly what the per-element-loop variant computes. -/
theorem n_write_some_eq_ts (N : Nat) (rb : RingBuf α) (data : List α)
    (r : RingBuf α × Nat) (h : n_write N rb data = some r) :
    TS.n_write N rb data = r := by
  by_cases hfull : N - rb.used_count = 0
  · rw [n_write] at h
    rw [if_pos hfull] at h
    rw [TS.n_write_full N rb data hfull]
    exact (Option.some.injEq _ _ ▸ h).symm ▸ rfl
  · by_cases hnowrap : min data.length (N - rb.used_count) ≤ N - rb.tail
    · rw [n_write, if_neg hfull] at h
      simp only [if_pos hnowrap] at h
      rw [TS.n_write_nowrap N rb data hfull hnowrap]
      exact Option.some_injective _ h
    · by_cases hguard : data.length - (N - rb.tail) =
        min data.length (N - rb.used_count) - (N - rb.tail)
      · rw [n_write, if_neg hfull] at h
        simp only [if_neg hnowrap, if_pos hguard] at h
        rw [TS.n_write_wrap N rb data hfull hnowrap]
        have hdl : (data.drop (N - rb.tail)).take
            (min data.length (N - rb.used_count) - (N - rb.tail)) =
            data.drop (N - rb.tail) := by
          rw [← hguard]
          have : (data.drop (N - rb.tail)).length = data.length - (N - rb.tail) := by
            simp
          rw [← this, List.take_length]
        rw [hdl]
        exact Option.some_injective _ h
      · rw [n_write, if_neg hfull] at h
        simp only [if_neg hnowrap, if_neg hguard] at h
        exact absurd h (by simp)

theorem step_some_eq_ts (N : Nat) (rb : RingBuf α) (op : Op α)
    (s : RingBuf α × List α × List α) (h : step N rb op = some s) :
    TS.step N rb op = s := by
  cases op with
  | write data =>
      rw [step] at h
      cases hw : n_write N rb data with
      | none => rw [hw] at h; simp at h
      | some r =>
          rw [hw] at h
          rw [Option.map_some'] at h
          rw [TS.step_write, n_write_some_eq_ts N rb data r hw]
          exact Option.some_injective _ h
  | read =>
      rw [step] at h
      rw [TS.step_read, ← n_read_eq_ts]
      exact Option.some_injective _ h

theorem runOps_some_eq_ts (N : Nat) (ops : List (Op α)) (rb : RingBuf α)
    (r : RingBuf α × List α × List α) (h : runOps N rb ops = some r) :
    TS.runOps N rb ops = r := by
  induction ops generalizing rb r with
  | nil =>
      rw [runOps] at h
      exact (Option.some_injective _ h) ▸ rfl
  | cons op ops ih =>
      rw [runOps] at h
      cases hs : step N rb op with
      | none => rw [hs] at h; simp at h
      | some s =>
          rw [hs] at h
          simp only [Option.bind_eq_bind, Option.some_bind] at h
          cases hr : runOps N s.1 ops with
          | none => rw [hr] at h; simp at h
          | some r2 =>
              rw [hr] at h
              simp only [Option.some_bind] at h
              rw [TS.runOps_cons, step_some_eq_ts N rb op s hs, ih _ _ hr]
              exact Option.some_injective _ h

theorem reachable_has_inv (N : Nat) (z : α) (rb : RingBuf α)
    (h : Reachable N z rb) : ∃ C, TS.Inv N rb C := by
  obtain ⟨ops, r, hops, hrb⟩ := h
  have := runOps_some_eq_ts N ops (RingBuf.new N z) r hops
  exact TS.reachable_inv N z rb ⟨ops, by rw [this, hrb]⟩

end RB

theorem exists_map_some_of_forall (l : List (Option β))
    (h : ∀ i, i < l.length → ∃ p, l[i]? = some (some p)) :
    ∃ l2 : List β, l = l2.map some := by
  induction l with
  | nil => exact ⟨[], rfl⟩
  | cons o rest ih =>
      obtain ⟨p, hp⟩ := h 0 (by simp)
      simp at hp
      obtain ⟨l2, hl2⟩ := ih fun i hi => by
        have h3 := h (i + 1) (by simpa using hi)
        simpa using h3
      exact ⟨p :: l2, by simp [hp, hl2]⟩

namespace TSG

theorem boxSeg_length (base : Nat) (l : List α) :
    (boxSeg base l).length = l.length := by
  induction l generalizing base with
  | nil => rfl
  | cons x xs ih => simp [boxSeg, ih]

theorem collectSome_map_some (l : List β) :
    collectSome (l.map some) = some l := by
  induction l with
  | nil => rfl
  | cons x xs ih => simp [collectSome, ih]

theorem n_read_zero (N : Nat) (rb : RingBufG α) (out0 : List α)
    (h : rb.used_count = 0) : n_read N rb out0 = some (rb, [], [], 0) := by
  simp [n_read, h]

/-- On a well-formed state whose occupied slots all hold live boxes,
`TSG.n_read` succeeds, returns `used_count` as the count, emits exactly that
many values, and leaves the buffer empty. -/
theorem n_read_spec (N : Nat) (rb : RingBufG α) (out0 : List α)
    (hlen : rb.buffer.length = N) (hhead : rb.head ≤ N)
    (hcap : rb.used_count ≤ N)
    (hlive : ∀ i, i < rb.used_count →
      ∃ p, rb.buffer[(rb.head + i) % N]? = some (some p)) :
    ∃ st out freed, n_read N rb out0 = some (st, out, freed, rb.used_count) ∧
      out.length = rb.used_count ∧ st.used_count = 0 := by
  by_cases h0 : rb.used_count = 0
  · exact ⟨rb, [], [], by rw [n_read_zero N rb out0 h0, h0], by simp [h0], h0⟩
  · have hN : 0 < N := by omega
    by_cases hnowrap : rb.used_count ≤ N - rb.head
    · have hall : ∀ i, i < ((rb.buffer.drop rb.head).take rb.used_count).length →
          ∃ p, ((rb.buffer.drop rb.head).take rb.used_count)[i]? = some (some p) := by
        intro i hi
        rw [List.length_take, List.length_drop, hlen] at hi
        have hi2 : i < rb.used_count := by omega
        rw [List.getElem?_take, if_pos hi2, List.getElem?_drop,
          ← Nat.mod_eq_of_lt (show rb.head + i < N by omega)]
        exact hlive i hi2
      obtain ⟨l2, hl2⟩ := exists_map_some_of_forall _ hall
      have hl2len : l2.length = rb.used_count := by
        have := congrArg List.length hl2
        simp [hlen] at this
        omega
      refine ⟨{ rb with used_count := rb.used_count - rb.used_count,
                        head := rb.head + rb.used_count },
        l2.map Prod.snd, l2.map Prod.fst, ?_, by simp [hl2len], by simp⟩
      rw [n_read]
      simp only [if_neg h0, if_pos hnowrap, hl2, collectSome_map_some]
    · have hall : ∀ i,
          i < ((rb.buffer.drop rb.head).take (N - rb.head) ++
            rb.buffer.take (rb.used_count - (N - rb.head))).length →
          ∃ p, ((rb.buffer.drop rb.head).take (N - rb.head) ++
            rb.buffer.take (rb.used_count - (N - rb.head)))[i]? =
              some (some p) := by
        intro i hi
        rw [List.length_append, List.length_take, List.length_drop,
          List.length_take, hlen] at hi
        rcases Nat.lt_or_ge i (N - rb.head) with h1 | h1
        · rw [List.getElem?_append, if_pos (by simp [hlen]; omega),
            List.getElem?_take, if_pos h1, List.getElem?_drop,
            ← Nat.mod_eq_of_lt (show rb.head + i < N by omega)]
          exact hlive i (by omega)
        · have hi2 : i < rb.used_count := by omega
          rw [List.getElem?_append_right (by simp [hlen]; omega),
            List.getElem?_take, if_pos (by simp [hlen]; omega)]
          have hmod : (rb.head + i) % N = i - (N - rb.head) := by
            have h5 : rb.head + i = N + (i - (N - rb.head)) := by omega
            rw [h5, Nat.add_mod_left, Nat.mod_eq_of_lt (by omega)]
          have := hlive i hi2
          rw [hmod] at this
          have harg : i - (N - rb.head) =
              (List.take (N - rb.head) (List.drop rb.head rb.buffer)).length +
                i - (List.take (N - rb.head) (List.drop rb.head rb.buffer)).length -
                  (List.take (N - rb.head) (List.drop rb.head rb.buffer)).length := by
            simp [hlen]
          simpa [hlen] using this
      obtain ⟨l2, hl2⟩ := exists_map_some_of_forall _ hall
      have hl2len : l2.length = rb.used_count := by
        have := congrArg List.length hl2
        simp [hlen] at this
        omega
      refine ⟨{ rb with used_count := rb.used_count - rb.used_count,
                        head := rb.used_count - (N - rb.head) },
        l2.map Prod.snd, [], ?_, by simp [hl2len], by simp⟩
      rw [n_read]
      simp only [if_neg h0, if_neg hnowrap, hl2, collectSome_map_some]

end TSG

/-- C9: pushing `v` on any stack and then popping returns `some v` and the
original stack; popping a fresh (empty) stack returns `none`. -/
theorem claim_C9 (α : Type) (s : StackM.Stack α) (v : α) :
    StackM.pop (StackM.push s v) = (s, some v) ∧
      StackM.pop (StackM.Stack.new : StackM.Stack α) = (StackM.Stack.new, none) :=
  ⟨rfl, rfl⟩

/-- C6: writing to a full buffer (`used_count = N`) returns 0 and leaves the
entire state — slots, indices, counter — unchanged, in both the inline
variant and the boxed variant. -/
theorem claim_C6 (α : Type) (N : Nat) (rb : RingBuf α) (rbg : TSG.RingBufG α)
    (data datag : List α) (h1 : rb.used_count = N) (h2 : rbg.used_count = N) :
    RB.n_write N rb data = some (rb, 0) ∧ TSG.n_write N rbg datag = (rbg, 0) := by
  constructor
  · rw [RB.n_write, if_pos (by rw [h1, Nat.sub_self])]
  · rw [TSG.n_write, if_pos (by rw [h2, Nat.sub_self])]

theorem claim_C6_witness :
    RB.n_write 1 (⟨[5], 0, 0, 1⟩ : RingBuf Nat) [7] = some (⟨[5], 0, 0, 1⟩, 0) ∧
      TSG.n_write 1 (⟨[some (0, 5)], 0, 0, 1, 1⟩ : TSG.RingBufG Nat) [7] =
        (⟨[some (0, 5)], 0, 0, 1, 1⟩, 0) :=
  claim_C6 Nat 1 ⟨[5], 0, 0, 1⟩ ⟨[some (0, 5)], 0, 0, 1, 1⟩ [7] [7] rfl rfl

/-- C8: reading an empty buffer returns 0, leaves the output empty and the
state untouched, in the inline and atomic-scalar variants; consequently any
number of further reads all return 0 and change nothing. -/
theorem claim_C8 (α : Type) (N : Nat) (rb : RingBuf α) (out0 : List α)
    (h : rb.used_count = 0) :
    RB.n_read N rb out0 = (rb, [], 0) ∧ TS.n_read N rb out0 = (rb, [], 0) ∧
      ∀ k, TS.runOps N rb (List.replicate k Op.read) = (rb, [], []) := by
  refine ⟨by rw [RB.n_read_eq_ts]; exact TS.n_read_empty N rb out0 h,
    TS.n_read_empty N rb out0 h, ?_⟩
  intro k
  induction k with
  | zero => rfl
  | succ k ih =>
      rw [List.replicate_succ, TS.runOps_cons, TS.step_read,
        TS.n_read_empty N rb [] h]
      simp [ih]

theorem claim_C8_witness :
    RB.n_read 1 (⟨[3], 0, 0, 0⟩ : RingBuf Nat) [8] = (⟨[3], 0, 0, 0⟩, [], 0) ∧
      TS.runOps 1 (⟨[3], 0, 0, 0⟩ : RingBuf Nat) (List.replicate 3 Op.read) =
        (⟨[3], 0, 0, 0⟩, [], []) :=
  ⟨(claim_C8 Nat 1 ⟨[3], 0, 0, 0⟩ [8] rfl).1,
    (claim_C8 Nat 1 ⟨[3], 0, 0, 0⟩ [8] rfl).2.2 3⟩

/-- C10: writing an empty batch to a non-full buffer returns 0 and leaves
the entire state unchanged (inline and boxed variants) — so a returned 0 by
itself does not distinguish a full buffer from an empty input batch. -/
theorem claim_C10 (α : Type) (N : Nat) (rb : RingBuf α) (rbg : TSG.RingBufG α)
    (h1 : rb.used_count < N) (h2 : rbg.used_count < N) :
    RB.n_write N rb [] = some (rb, 0) ∧ TSG.n_write N rbg [] = (rbg, 0) := by
  constructor
  · obtain ⟨buf, hd, tl, u⟩ := rb
    rw [RB.n_write, if_neg (by simp at h1 ⊢; omega)]
    simp [setSeg]
  · obtain ⟨buf, hd, tl, u, na⟩ := rbg
    rw [TSG.n_write, if_neg (by simp at h2 ⊢; omega)]
    simp [setSeg, TSG.boxSeg]

theorem claim_C10_witness :
    RB.n_write 2 (⟨[4, 5], 1, 1, 1⟩ : RingBuf Nat) [] = some (⟨[4, 5], 1, 1, 1⟩, 0) ∧
      TSG.n_write 2 (⟨[some (0, 4), none], 0, 1, 1, 1⟩ : TSG.RingBufG Nat) [] =
        (⟨[some (0, 4), none], 0, 1, 1, 1⟩, 0) :=
  claim_C10 Nat 2 ⟨[4, 5], 1, 1, 1⟩ ⟨[some (0, 4), none], 0, 1, 1, 1⟩
    (by decide) (by decide)

/-- C5: over every sequence of calls from a fresh buffer, `used_count` never
exceeds the capacity `N` (and, being a natural number whose only decrement
subtracts its own current value, it never underflows). -/
theorem claim_C5 (α : Type) (z : α) (N : Nat) (rb : RingBuf α)
    (h : TS.Reachable N z rb) : rb.used_count ≤ N := by
  obtain ⟨C, hinv⟩ := TS.reachable_inv N z rb h
  exact hinv.hcap

theorem claim_C5_witness :
    TS.Reachable 3 (0 : Nat) (TS.runOps 3 (RingBuf.new 3 0)
        [Op.write [7, 8], Op.read, Op.write [9]]).1 ∧
      (TS.runOps 3 (RingBuf.new 3 (0 : Nat))
        [Op.write [7, 8], Op.read, Op.write [9]]).1.used_count ≤ 3 :=
  ⟨⟨[Op.write [7, 8], Op.read, Op.write [9]], rfl⟩,
    claim_C5 Nat 0 3 _ ⟨[Op.write [7, 8], Op.read, Op.write [9]], rfl⟩⟩

/-- C3 (counterexample): from a fresh capacity-2 inline buffer, a single
write of two elements is a completed call sequence whose resulting state has
`write_index = 2 = N`, which neither lies in `[0, N)` nor equals
`(read_index + occupied_count) mod N = 0`. -/
theorem claim_C3_counterexample :
    RB.runOps 2 (RingBuf.new 2 (0 : Nat)) [Op.write [5, 6]] =
        some (⟨[5, 6], 0, 2, 2⟩, [5, 6], []) ∧
      ¬ ((⟨[5, 6], 0, 2, 2⟩ : RingBuf Nat).tail < 2) ∧
      (⟨[5, 6], 0, 2, 2⟩ : RingBuf Nat).tail ≠
        ((⟨[5, 6], 0, 2, 2⟩ : RingBuf Nat).head +
          (⟨[5, 6], 0, 2, 2⟩ : RingBuf Nat).used_count) % 2 := by
  decide

/-- C3 (amended): in every state reachable from a fresh inline buffer by
completed calls, `read_index` and `write_index` lie in `[0, N]` — an index
momentarily equals `N` (instead of wrapping to 0) exactly when a copied
range ends at the array boundary — and
`write_index ≡ read_index + occupied_count (mod N)`. -/
theorem claim_C3 (α : Type) (z : α) (N : Nat) (rb : RingBuf α)
    (h : RB.Reachable N z rb) :
    rb.head ≤ N ∧ rb.tail ≤ N ∧
      rb.tail % N = (rb.head + rb.used_count) % N := by
  obtain ⟨C, hinv⟩ := RB.reachable_has_inv N z rb h
  exact ⟨hinv.hhead, hinv.htail, hinv.hsync⟩

theorem claim_C3_witness :
    (⟨[5, 6], 0, 2, 2⟩ : RingBuf Nat).head ≤ 2 ∧
      (⟨[5, 6], 0, 2, 2⟩ : RingBuf Nat).tail ≤ 2 ∧
      (⟨[5, 6], 0, 2, 2⟩ : RingBuf Nat).tail % 2 =
        ((⟨[5, 6], 0, 2, 2⟩ : RingBuf Nat).head +
          (⟨[5, 6], 0, 2, 2⟩ : RingBuf Nat).used_count) % 2 :=
  claim_C3 Nat 0 2 ⟨[5, 6], 0, 2, 2⟩
    ⟨[Op.write [5, 6]], (⟨[5, 6], 0, 2, 2⟩, [5, 6], []), by decide, rfl⟩

/-- C2: for every sequence of batched calls on the atomic-scalar variant,
ending with a final (draining) read, the concatenation of all read outputs
equals the concatenation of all accepted write prefixes, in submission
order — FIFO regardless of batch boundaries. -/
theorem claim_C2 (α : Type) (z : α) (N : Nat) (ops : List (Op α)) :
    (TS.runOps N (RingBuf.new N z) (ops ++ [Op.read])).2.2 =
      (TS.runOps N (RingBuf.new N z) (ops ++ [Op.read])).2.1 := by
  obtain ⟨C, hC, heq⟩ :=
    TS.runOps_inv N (ops ++ [Op.read]) (RingBuf.new N z) [] (TS.inv_new N z)
  have hused0 :
      (TS.runOps N (RingBuf.new N z) (ops ++ [Op.read])).1.used_count = 0 := by
    rw [TS.runOps_append]
    exact TS.n_read_used N _ []
  have hC0 : C = [] :=
    List.eq_nil_of_length_eq_zero (by rw [← hC.hused]; exact hused0)
  rw [hC0] at heq
  simpa using heq.symm

/-- C7: a read clears the output first (its result is independent of the
output vector's previous contents) and appends exactly `count_read`
elements; `count_read` equals `occupied_count` at call time and the buffer
is left with `occupied_count = 0`.  Shown for the inline variant on any
well-formed state, and for the boxed variant on any well-formed state whose
occupied slots hold live boxes. -/
theorem claim_C7 (α : Type) (N : Nat) (rb : RingBuf α) (out0 : List α)
    (rbg : TSG.RingBufG α) (outg : List α)
    (hlen : rb.buffer.length = N) (hcap : rb.used_count ≤ N)
    (hglen : rbg.buffer.length = N) (hghead : rbg.head ≤ N)
    (hgcap : rbg.used_count ≤ N)
    (hglive : ∀ i, i < rbg.used_count →
      ∃ p, rbg.buffer[(rbg.head + i) % N]? = some (some p)) :
    RB.n_read N rb out0 = RB.n_read N rb [] ∧
      (RB.n_read N rb out0).2.2 = rb.used_count ∧
      (RB.n_read N rb out0).2.1.length = rb.used_count ∧
      (RB.n_read N rb out0).1.used_count = 0 ∧
      TSG.n_read N rbg outg = TSG.n_read N rbg [] ∧
      ∃ st out freed,
        TSG.n_read N rbg outg = some (st, out, freed, rbg.used_count) ∧
          out.length = rbg.used_count ∧ st.used_count = 0 := by
  refine ⟨rfl, ?_, ?_, ?_, rfl,
    TSG.n_read_spec N rbg outg hglen hghead hgcap hglive⟩
  · rw [RB.n_read_eq_ts]
    exact TS.n_read_count N rb out0
  · rw [RB.n_read_eq_ts]
    exact TS.n_read_len N rb out0 hlen hcap
  · rw [RB.n_read_eq_ts]
    exact TS.n_read_used N rb out0

theorem claim_C7_witness :
    RB.n_read 2 (⟨[4, 5], 1, 1, 2⟩ : RingBuf Nat) [9] =
        RB.n_read 2 ⟨[4, 5], 1, 1, 2⟩ [] ∧
      (RB.n_read 2 (⟨[4, 5], 1, 1, 2⟩ : RingBuf Nat) [9]).2.2 = 2 ∧
      (RB.n_read 2 (⟨[4, 5], 1, 1, 2⟩ : RingBuf Nat) [9]).2.1.length = 2 ∧
      (RB.n_read 2 (⟨[4, 5], 1, 1, 2⟩ : RingBuf Nat) [9]).1.used_count = 0 ∧
      TSG.n_read 2 (⟨[some (0, 4), some (1, 5)], 1, 1, 2, 2⟩ : TSG.RingBufG Nat) [9] =
        TSG.n_read 2 ⟨[some (0, 4), some (1, 5)], 1, 1, 2, 2⟩ [] ∧
      ∃ st out freed,
        TSG.n_read 2 (⟨[some (0, 4), some (1, 5)], 1, 1, 2, 2⟩ : TSG.RingBufG Nat) [9] =
            some (st, out, freed, 2) ∧
          out.length = 2 ∧ st.used_count = 0 :=
  claim_C7 Nat 2 ⟨[4, 5], 1, 1, 2⟩ [9] ⟨[some (0, 4), some (1, 5)], 1, 1, 2, 2⟩ [9]
    rfl (by decide) rfl (by decide) (by decide)
    (by
      intro i hi
      match i, hi with
      | 0, _ => exact ⟨(1, 5), by decide⟩
      | 1, _ => exact ⟨(0, 4), by decide⟩
      | n + 2, h => exact absurd h (by simp))

/-- C1: the inline variant's wrap-branch write panics — modelled as `none` —
whenever the input batch is strictly longer than `write_count` and a wrap is
required, because `self.buffer[..new_tail].copy_from_slice(&data[(N-tail)..])`
receives a source slice longer than its destination; the spec's step 4
requires copying exactly `write_count - (N - write_index)` elements and
completing normally.  Concretely: on a capacity-2 buffer, after
`write([10]); read()` (so `tail = 1`, `used = 0`), writing `[1, 2, 3]` must
transfer `write_count = 2` with a wrap, but the call dies instead of
returning 2.  The boxed variant (also cited by the claim), whose loops copy
exactly the counted elements, completes the same sequence normally and
returns 2. -/
theorem claim_C1 :
    RB.runOps 2 (RingBuf.new 2 (0 : Nat))
        [Op.write [10], Op.read, Op.write [1, 2, 3]] = none ∧
      TSG.n_write 2 (TSG.RingBufG.new 2) [10] =
        (⟨[some (0, 10), none], 0, 1, 1, 1⟩, 1) ∧
      TSG.n_read 2 (⟨[some (0, 10), none], 0, 1, 1, 1⟩ : TSG.RingBufG Nat) [] =
        some (⟨[some (0, 10), none], 1, 1, 0, 1⟩, [10], [0], 1) ∧
      TSG.n_write 2 (⟨[some (0, 10), none], 1, 1, 0, 1⟩ : TSG.RingBufG Nat)
          [1, 2, 3] =
        (⟨[some (2, 2), some (1, 1)], 1, 1, 2, 3⟩, 2) := by
  decide

/-- C4: in the boxed variant a read that wraps around the end of the slot
array deallocates nothing: its two loops push `*slot.load()` without
`Box::from_raw`.  Concretely, on a capacity-2 buffer: `write([7])` allocates
box 0; `read()` (no wrap) frees exactly box 0; `write([8, 9])` allocates
boxes 1 and 2 (`next_alloc` goes from 1 to 3); the final `read()` wraps,
copies both elements out, and frees no box at all — boxes 1 and 2 are
leaked, not deallocated exactly once as the claim states. -/
theorem claim_C4 :
    TSG.n_write 2 (TSG.RingBufG.new 2) [7] =
        (⟨[some (0, 7), none], 0, 1, 1, 1⟩, 1) ∧
      TSG.n_read 2 (⟨[some (0, 7), none], 0, 1, 1, 1⟩ : TSG.RingBufG Nat) [] =
        some (⟨[some (0, 7), none], 1, 1, 0, 1⟩, [7], [0], 1) ∧
      TSG.n_write 2 (⟨[some (0, 7), none], 1, 1, 0, 1⟩ : TSG.RingBufG Nat)
          [8, 9] =
        (⟨[some (2, 9), some (1, 8)], 1, 1, 2, 3⟩, 2) ∧
      TSG.n_read 2 (⟨[some (2, 9), some (1, 8)], 1, 1, 2, 3⟩ : TSG.RingBufG Nat) [] =
        some (⟨[some (2, 9), some (1, 8)], 1, 1, 0, 3⟩, [8, 9], [], 2) := by
  decide
